import Mathlib

/-!
Verification of the hydrocarbon import/consumption cleaning pipeline
(scripts src/excel_a_csv.py and src/actualiza_datos_2025.py).

Modelling conventions (shallow embedding):
  - A Python string is a list of Unicode code points: Str := List Nat.
  - A pandas DataFrame is a list of row records; a raw sheet is a list of
    rows of string cells.
  - Missing values (NaN / NaT) are Option.none.
  - Numeric cell values are exact decimal numbers (mantissa and decimal
    exponent, value mant / 10 ^ exp), the idealization of the floats that
    pandas produces; their meaning as rationals is given by DecNum.toRat.
  - Dates (pandas Timestamps) are integers ordered as usual; the library
    date parser pd.to_datetime is an explicit parameter pdate of the
    cleaning functions (a cell parses to a date, or to NaT = none).
  - pandas sort_values is modelled as a sort by the date key
    (List.insertionSort); raised exceptions (ValueError / KeyError) are
    Except.error carrying the error payload.
-/

/-- Code points of a string literal, for readable statements. -/
def codes (s : String) : List Nat := s.data.map Char.toNat

abbrev Str := List Nat

/-- Python whitespace (the characters str.split and str.strip treat as
separators): tab, newline, vertical tab, form feed, carriage return, space. -/
def isSpaceCode (n : Nat) : Bool :=
  n == 9 || n == 10 || n == 11 || n == 12 || n == 13 || n == 32

/-- Python str.lower on one code point (ASCII letters; other code points are
left unchanged, which covers every label the scripts touch). -/
def lowerCode (n : Nat) : Nat := if 65 ≤ n ∧ n ≤ 90 then n + 32 else n

/-- Python str.lower. -/
def lowerStr (s : Str) : Str := s.map lowerCode

/-- Python str.strip: remove leading and trailing whitespace. -/
def stripStr (s : Str) : Str :=
  ((s.dropWhile isSpaceCode).reverse.dropWhile isSpaceCode).reverse

/-- Python str.split() with no argument: maximal runs of non-whitespace
(empty chunks between separators are discarded). -/
def words (s : Str) : List Str :=
  (s.splitOnP isSpaceCode).filter (fun w => !w.isEmpty)

/-- Python " ".join. -/
def joinWords : List Str → Str
  | [] => []
  | [w] => w
  | w :: ws => w ++ 32 :: joinWords ws

/-- col.replace of the one-character pattern of a newline by a space. -/
def replaceNewline (s : Str) : Str := s.map (fun n => if n == 10 then 32 else n)

/-- Body of normaliza_col on a string label: replace newlines by spaces,
strip, collapse internal whitespace runs to one space, lower-case. -/
def normaliza_col_str (s : Str) : Str :=
  lowerStr (joinWords (words (replaceNewline s)))

/-- A raw column label: a string, or a non-string placeholder (pandas can
hand the scripts numeric labels from malformed headers). -/
inductive ColLabel where
  | str : Str → ColLabel
  | nonstr : Int → ColLabel
deriving DecidableEq

/-- normaliza_col of both scripts: non-strings pass through unchanged,
strings are normalized. -/
def normaliza_col : ColLabel → ColLabel
  | .str s => .str (normaliza_col_str s)
  | .nonstr v => .nonstr v

/-- One cell matches the header test of detecta_header: its stripped,
lower-cased text equals exactly "fecha". -/
def matchFecha (cell : Str) : Bool := lowerStr (stripStr cell) == codes "fecha"

/-- row.astype(str).str.strip().str.lower().eq("fecha").any() -/
def filaTieneFecha (row : List Str) : Bool := row.any matchFecha

/-- The scan loop of detecta_header, carrying the current row index. -/
def detectaDesde (i : Nat) : List (List Str) → Option Nat
  | [] => none
  | row :: rest => if filaTieneFecha row then some i else detectaDesde (i + 1) rest

/-- detecta_header of both scripts: index of the first row containing a cell
equal to "fecha" after strip and lower; none models the raised ValueError. -/
def detecta_header (raw : List (List Str)) : Option Nat := detectaDesde 0 raw

/-- An exact decimal number, value mant / 10 ^ exp: the idealization of the
float values pd.to_numeric produces from the spreadsheet text. -/
structure DecNum where
  mant : Int
  exp : Nat
deriving DecidableEq

/-- The rational value a DecNum denotes. -/
def DecNum.toRat (n : DecNum) : ℚ := (n.mant : ℚ) / 10 ^ n.exp

/-- The float 0.0 that fillna(0) substitutes. -/
def DecNum.zero : DecNum := ⟨0, 0⟩

/-- Exact addition of decimal numbers (models float addition of the diesel
columns). -/
def DecNum.add (a b : DecNum) : DecNum :=
  ⟨a.mant * 10 ^ b.exp + b.mant * 10 ^ a.exp, a.exp + b.exp⟩

/-- Decimal digit code point. -/
def isDigitCode (n : Nat) : Bool := decide (48 ≤ n ∧ n ≤ 57)

/-- Value of a nonempty all-digit string; none otherwise. -/
def digitsVal (s : Str) : Option Nat :=
  if s.isEmpty then none
  else if s.all isDigitCode then some (s.foldl (fun a c => a * 10 + (c - 48)) 0)
  else none

/-- pd.to_numeric on an unsigned numeral: plain digits, or digits with one
decimal point (either side of the point may be empty, not both). -/
def parseUnsigned (s : Str) : Option DecNum :=
  match s.splitOn 46 with
  | [a] => (digitsVal a).map (fun v => (⟨Int.ofNat v, 0⟩ : DecNum))
  | [a, b] =>
    if a.isEmpty && b.isEmpty then none
    else
      match (if a.isEmpty then some 0 else digitsVal a),
            (if b.isEmpty then some 0 else digitsVal b) with
      | some va, some vb => some ⟨(va : Int) * 10 ^ b.length + (vb : Int), b.length⟩
      | _, _ => none
  | _ => none

/-- pd.to_numeric(errors="coerce") on one cell string: an optionally signed
decimal numeral, with anything unparseable becoming NaN (none). -/
def toNumeric (s : Str) : Option DecNum :=
  match s with
  | 45 :: rest => (parseUnsigned rest).map (fun n => ⟨-n.mant, n.exp⟩)
  | 43 :: rest => parseUnsigned rest
  | _ => parseUnsigned s

/-- str.replace of a one-character pattern by the empty string: every
occurrence of that character is removed. -/
def quitaTodos (x : Nat) (s : Str) : Str := s.filter (fun c => c != x)

/-- str.replace("--", "") : remove every (left-to-right, non-overlapping)
occurrence of two consecutive dashes. -/
def quitaDashDash : Str → Str
  | 45 :: 45 :: rest => quitaDashDash rest
  | c :: rest => c :: quitaDashDash rest
  | [] => []

/-- The per-cell numeric cleaning of both scripts: remove commas, spaces and
double dashes, then coerce to a number. -/
def limpiaCelda (s : Str) : Option DecNum :=
  toNumeric (quitaDashDash (quitaTodos 32 (quitaTodos 44 s)))

/-- Substring containment, Python "pat in s". -/
def containsSub (pat : Str) : Str → Bool
  | [] => pat.isEmpty
  | c :: rest => pat.isPrefixOf (c :: rest) || containsSub pat rest

/-- The defensive rename map of carga_y_limpia_hoja, as a function on one
normalized label (the script only ever builds rename entries for string
labels; non-strings are left alone). -/
def renombra : ColLabel → ColLabel
  | .str c =>
    if (codes "gasolina super").isPrefixOf c then .str (codes "gasolina superior")
    else if (codes "gasolina s").isPrefixOf c && containsSub (codes "rior") c then
      .str (codes "gasolina superior")
    else if (codes "gasolina regular").isPrefixOf c then .str (codes "gasolina regular")
    else if (codes "diesel alto").isPrefixOf c then .str (codes "diesel alto azufre")
    else .str c
  | .nonstr v => .nonstr v

/-- A sheet as re-read with the detected header row: the column labels and
the data rows below them, all cells as strings. -/
structure SheetData where
  header : List ColLabel
  rows : List (List Str)

/-- Required canonical columns of carga_y_limpia_hoja. -/
def requeridas : List Str :=
  [codes "fecha", codes "gasolina regular", codes "gasolina superior",
   codes "diesel alto azufre"]

/-- Required canonical columns of carga_y_limpia_importacion. -/
def requeridas2025 : List Str :=
  [codes "fecha", codes "gasolina regular", codes "gasolina superior",
   codes "diesel bajo azufre", codes "diesel ultra bajo azufre"]

/-- c in df.columns. -/
def hasCol (cols : List ColLabel) (c : Str) : Bool := cols.contains (ColLabel.str c)

/-- faltantes = the required labels absent from the columns, in order. -/
def faltantesDe (cols : List ColLabel) (req : List Str) : List Str :=
  req.filter (fun c => !hasCol cols c)

/-- Position of a required column among the labels (guarded by the
faltantes check before use). -/
def colIdx (cols : List ColLabel) (c : Str) : Nat :=
  cols.findIdx (fun l => l == ColLabel.str c)

/-- Cell of a row at a column position. -/
def celda (row : List Str) (j : Nat) : Str := row.getD j []

/-- df.sort_values on the date key. -/
def ordenaPorFecha {α : Type} (key : α → Int) (l : List α) : List α :=
  List.insertionSort (fun a b => key a ≤ key b) l

instance {α : Type} (key : α → Int) : DecidableRel (fun a b => key a ≤ key b) :=
  fun a b => Int.decLe (key a) (key b)

instance {α : Type} (key : α → Int) : IsTotal α (fun a b => key a ≤ key b) :=
  ⟨fun a b => Int.le_total (key a) (key b)⟩

instance {α : Type} (key : α → Int) : IsTrans α (fun a b => key a ≤ key b) :=
  ⟨fun _ _ _ h h2 => le_trans h h2⟩

/-- A cleaned row of carga_y_limpia_hoja: a valid date and the three
product columns, each a number or missing. -/
structure FilaLimpia where
  fecha : Int
  regular : Option DecNum
  superior : Option DecNum
  diesel : Option DecNum
deriving DecidableEq

/-- Steps 6 to 9 of the cleaner on the data rows, given the positions of the
four required columns: parse dates, drop rows without a valid date, sort by
date, clean the numeric cells. -/
def limpiaFilas (pdate : Str → Option Int) (jF jR jS jD : Nat)
    (rows : List (List Str)) : List FilaLimpia :=
  let conFecha := rows.filterMap (fun r => (pdate (celda r jF)).map (fun d => (d, r)))
  (ordenaPorFecha (fun p => p.1) conFecha).map
    (fun p => ⟨p.1, limpiaCelda (celda p.2 jR), limpiaCelda (celda p.2 jS),
               limpiaCelda (celda p.2 jD)⟩)

/-- carga_y_limpia_hoja of excel_a_csv.py, from the header-parsed sheet on:
normalize labels, rename defensively, check the required columns (KeyError
with the missing ones otherwise), then clean the rows. -/
def carga_y_limpia_hoja (pdate : Str → Option Int) (sh : SheetData) :
    Except (List Str) (List FilaLimpia) :=
  let cols := (sh.header.map normaliza_col).map renombra
  let falt := faltantesDe cols requeridas
  if falt.isEmpty then
    .ok (limpiaFilas pdate (colIdx cols (codes "fecha"))
          (colIdx cols (codes "gasolina regular"))
          (colIdx cols (codes "gasolina superior"))
          (colIdx cols (codes "diesel alto azufre")) sh.rows)
  else .error falt

/-- A cleaned row of the 2025 script before the diesel combination: the two
diesel grades are still separate. -/
structure FilaCinco where
  fecha : Int
  regular : Option DecNum
  superior : Option DecNum
  bajo : Option DecNum
  ultra : Option DecNum
deriving DecidableEq

/-- A final row of carga_y_limpia_importacion: renamed export columns, the
combined diesel total never missing. -/
structure FilaImp where
  fecha : Int
  Regular_Imp : Option DecNum
  Superior_Imp : Option DecNum
  Diesel_Imp : DecNum
deriving DecidableEq

/-- The date/numeric cleaning of the 2025 script (same steps as limpiaFilas,
with the five required columns). -/
def limpiaFilas2025 (pdate : Str → Option Int) (jF jR jS jB jU : Nat)
    (rows : List (List Str)) : List FilaCinco :=
  let conFecha := rows.filterMap (fun r => (pdate (celda r jF)).map (fun d => (d, r)))
  (ordenaPorFecha (fun p => p.1) conFecha).map
    (fun p => ⟨p.1, limpiaCelda (celda p.2 jR), limpiaCelda (celda p.2 jS),
               limpiaCelda (celda p.2 jB), limpiaCelda (celda p.2 jU)⟩)

/-- The diesel combination and final rename of carga_y_limpia_importacion:
Diesel_Imp = bajo.fillna(0) + ultra.fillna(0). -/
def combina_diesel (r : FilaCinco) : FilaImp :=
  ⟨r.fecha, r.regular, r.superior,
   DecNum.add (r.bajo.getD DecNum.zero) (r.ultra.getD DecNum.zero)⟩

/-- carga_y_limpia_importacion of actualiza_datos_2025.py, from the
header-parsed sheet on (no defensive rename in this script). -/
def carga_y_limpia_importacion (pdate : Str → Option Int) (sh : SheetData) :
    Except (List Str) (List FilaImp) :=
  let cols := sh.header.map normaliza_col
  let falt := faltantesDe cols requeridas2025
  if falt.isEmpty then
    .ok ((limpiaFilas2025 pdate (colIdx cols (codes "fecha"))
           (colIdx cols (codes "gasolina regular"))
           (colIdx cols (codes "gasolina superior"))
           (colIdx cols (codes "diesel bajo azufre"))
           (colIdx cols (codes "diesel ultra bajo azufre")) sh.rows).map combina_diesel)
  else .error falt

/-- Fueled body of str.replace(pat, repl): scan left to right, replacing
each non-overlapping occurrence of pat (the fuel, at least the length of
the scanned string, only drives termination). -/
def replaceSubF (pat repl : Str) : Nat → Str → Str
  | _, [] => []
  | 0, s => s
  | f + 1, c :: rest =>
    if pat.isPrefixOf (c :: rest) && !pat.isEmpty then
      repl ++ replaceSubF pat repl f ((c :: rest).drop pat.length)
    else c :: replaceSubF pat repl f rest

/-- str.replace(pat, repl, regex=False) for a non-empty literal pattern. -/
def replaceSub (pat repl s : Str) : Str := replaceSubF pat repl s.length s

/-- The chained producto substitutions of wide_to_long, in script order. -/
def productoTag (c : Str) : Str :=
  replaceSub (codes "diesel alto azufre") (codes "diesel")
    (replaceSub (codes "gasolina superior") (codes "superior")
      (replaceSub (codes "gasolina regular") (codes "regular") c))

/-- One row of the long (tidy) table. -/
structure FilaLarga where
  fecha : Int
  producto : Str
  barriles : Option DecNum
  origen : Str
deriving DecidableEq

/-- df.melt(id_vars="fecha", ...): one block of rows per non-date column,
in column order, each row carrying the date, the column label and the value. -/
def melt (df : List FilaLimpia) : List (Int × Str × Option DecNum) :=
  (df.map fun r => (r.fecha, (codes "gasolina regular", r.regular)))
  ++ (df.map fun r => (r.fecha, (codes "gasolina superior", r.superior)))
  ++ (df.map fun r => (r.fecha, (codes "diesel alto azufre", r.diesel)))

/-- wide_to_long of excel_a_csv.py: melt, shorten the product labels, tag
every row with the caller's origin constant. -/
def wide_to_long (df : List FilaLimpia) (origen : Str) : List FilaLarga :=
  (melt df).map (fun m => ⟨m.1, productoTag m.2.1, m.2.2, origen⟩)

/-- One row of the combined (outer-joined) table, with the origin-suffixed
column names of the merge in main. -/
structure FilaComb where
  fecha : Int
  Regular_Imp : Option DecNum
  Superior_Imp : Option DecNum
  Diesel_Imp : Option DecNum
  Regular_Con : Option DecNum
  Superior_Con : Option DecNum
  Diesel_Con : Option DecNum
deriving DecidableEq

/-- A combined row from a matched pair of import and consumption rows. -/
def mergeAmbos (a b : FilaLimpia) : FilaComb :=
  ⟨a.fecha, a.regular, a.superior, a.diesel, b.regular, b.superior, b.diesel⟩

/-- A combined row whose date only the import table has. -/
def soloImp (a : FilaLimpia) : FilaComb :=
  ⟨a.fecha, a.regular, a.superior, a.diesel, none, none, none⟩

/-- A combined row whose date only the consumption table has. -/
def soloCon (b : FilaLimpia) : FilaComb :=
  ⟨b.fecha, none, none, none, b.regular, b.superior, b.diesel⟩

/-- The combined rows one import row contributes: one per consumption row
of equal date, or a single row with missing consumption columns if there is
none. -/
def paresDe (con : List FilaLimpia) (a : FilaLimpia) : List FilaComb :=
  match con.filter (fun b => b.fecha == a.fecha) with
  | [] => [soloImp a]
  | bs => bs.map (mergeAmbos a)

/-- pd.merge(imp, con, on="fecha", how="outer"): every import row paired
with each consumption row of equal date (or with missing consumption
columns if there is none), followed by the unmatched consumption rows with
missing import columns. -/
def outer_merge (imp con : List FilaLimpia) : List FilaComb :=
  (imp.map (paresDe con)).flatten
  ++ (con.filter (fun b => !imp.any (fun a => a.fecha == b.fecha))).map soloCon

/-- The combined table of main: outer merge then sort_values("fecha"). -/
def series_de_tiempo (imp con : List FilaLimpia) : List FilaComb :=
  ordenaPorFecha FilaComb.fecha (outer_merge imp con)

/-- Fueled decimal digits of a natural number, most significant first. -/
def natDigitsAux : Nat → Nat → Str
  | 0, _ => []
  | f + 1, n => if n < 10 then [48 + n] else natDigitsAux f (n / 10) ++ [48 + n % 10]

/-- Decimal digits of a natural number. -/
def natDigits (n : Nat) : Str := natDigitsAux (n + 1) n

/-- Decimal text of an integer. -/
def intStr (i : Int) : Str :=
  if i < 0 then 45 :: natDigits i.natAbs else natDigits i.natAbs

/-- Leading zeros. -/
def padCeros (k : Nat) : Str := List.replicate k 48

/-- Deterministic decimal rendering of a stored number, as to_csv writes it:
mantissa digits with the decimal point inserted exp places from the right. -/
def serializaNum (v : DecNum) : Str :=
  if v.exp = 0 then intStr v.mant
  else
    (if v.mant < 0 then [45] else []) ++
      natDigits (v.mant.natAbs / 10 ^ v.exp) ++
      46 :: padCeros (v.exp - (natDigits (v.mant.natAbs % 10 ^ v.exp)).length) ++
      natDigits (v.mant.natAbs % 10 ^ v.exp)

/-- One CSV field: a missing value becomes the empty field. -/
def serializaCelda : Option DecNum → Str
  | none => []
  | some v => serializaNum v

/-- The header line to_csv writes for a cleaned table (index=False: no row
index column). -/
def encabezadoCSV : Str := codes "fecha,gasolina regular,gasolina superior,diesel alto azufre"

/-- One comma-separated data line of to_csv. -/
def filaCSV (r : FilaLimpia) : Str :=
  [44].intercalate
    [intStr r.fecha, serializaCelda r.regular, serializaCelda r.superior,
     serializaCelda r.diesel]

/-- df.to_csv(path, index=False): the header line and one line per row,
newline separated. -/
def to_csv (df : List FilaLimpia) : Str :=
  [10].intercalate (encabezadoCSV :: df.map filaCSV)

/-- Re-parse of one serialized integer. -/
def parseIntStr (s : Str) : Option Int :=
  match s with
  | 45 :: rest => (digitsVal rest).map (fun n => -(Int.ofNat n))
  | _ => (digitsVal s).map Int.ofNat

/-- Re-parse of one CSV data line: the four comma-separated fields, the date
field as an integer, the value fields as numbers with the empty field read
as missing (toNumeric of the empty string is none). -/
def parseFilaCSV (line : Str) : Option FilaLimpia :=
  match line.splitOn 44 with
  | [f, r, s, d] => (parseIntStr f).map (fun d0 => ⟨d0, toNumeric r, toNumeric s, toNumeric d⟩)
  | _ => none

/-- Re-parse of the data lines, failing if any line does. -/
def parseFilas : List Str → Option (List FilaLimpia)
  | [] => some []
  | l :: ls =>
    match parseFilaCSV l, parseFilas ls with
    | some r, some rs => some (r :: rs)
    | _, _ => none

/-- Re-parse of a whole exported file: split into lines, check the header
line, parse every data line. -/
def read_csv (file : Str) : Option (List FilaLimpia) :=
  match file.splitOn 10 with
  | [] => none
  | hdr :: lines => if hdr == encabezadoCSV then parseFilas lines else none

/-- The header line to_csv writes in actualiza_datos_2025.py (index=False:
no row index column). -/
def encabezadoCSV2025 : Str := codes "fecha,Regular_Imp,Superior_Imp,Diesel_Imp"

/-- One comma-separated data line of the 2025 export: the combined diesel
column is never missing, so its field is never empty. -/
def filaCSV2025 (r : FilaImp) : Str :=
  [44].intercalate
    [intStr r.fecha, serializaCelda r.Regular_Imp, serializaCelda r.Superior_Imp,
     serializaNum r.Diesel_Imp]

/-- df.to_csv(out_path, index=False) of actualiza_datos_2025.py. -/
def to_csv_2025 (df : List FilaImp) : Str :=
  [10].intercalate (encabezadoCSV2025 :: df.map filaCSV2025)

/-- Re-parse of one 2025 data line: four comma-separated fields, the date as
an integer, the two gasoline fields as numbers with the empty field read as
missing, the diesel field as a (present) number. -/
def parseFilaCSV2025 (line : Str) : Option FilaImp :=
  match line.splitOn 44 with
  | [f, r, s, d] =>
    (parseIntStr f).bind (fun d0 =>
      (toNumeric d).map (fun dv => ⟨d0, toNumeric r, toNumeric s, dv⟩))
  | _ => none

/-- Re-parse of the 2025 data lines, failing if any line does. -/
def parseFilas2025 : List Str → Option (List FilaImp)
  | [] => some []
  | l :: ls =>
    match parseFilaCSV2025 l, parseFilas2025 ls with
    | some r, some rs => some (r :: rs)
    | _, _ => none

/-- Re-parse of a whole 2025 exported file. -/
def read_csv_2025 (file : Str) : Option (List FilaImp) :=
  match file.splitOn 10 with
  | [] => none
  | hdr :: lines => if hdr == encabezadoCSV2025 then parseFilas2025 lines else none

/-- A concrete date parser for the executable examples: a date cell is a
plain numeral (anything else is NaT). Stands in for pd.to_datetime, which
the theorems otherwise keep abstract. -/
def pdateDigits (s : Str) : Option Int := (digitsVal s).map Int.ofNat

/-- Concrete 2025-script sheet whose diesel-grade pairs are
(5, missing), (missing, missing), (3, 2). -/
def shDiesel : SheetData :=
  { header := [.str (codes "Fecha"), .str (codes "Gasolina Regular"),
               .str (codes "Gasolina Superior"), .str (codes "Diesel bajo azufre"),
               .str (codes "Diesel ultra bajo azufre")]
  , rows := [[codes "1", codes "8", codes "9", codes "5", codes "--"],
             [codes "2", codes "8", codes "9", codes "--", codes "--"],
             [codes "3", codes "8", codes "9", codes "3", codes "2"]] }

/-- Concrete sheet with one unparseable-date row (a totals line) and one
valid row whose superior cell is the placeholder of two dashes. -/
def shCuatro : SheetData :=
  { header := [.str (codes "Fecha"), .str (codes "Gasolina Regular"),
               .str (codes "Gasolina Superior"), .str (codes "Diesel alto azufre")]
  , rows := [[codes "Total", codes "9", codes "9", codes "9"],
             [codes "7", codes "1,250", codes "--", codes "4"]] }

/-- Concrete sheet carrying the same valid date twice. -/
def shDup : SheetData :=
  { header := [.str (codes "Fecha"), .str (codes "Gasolina Regular"),
               .str (codes "Gasolina Superior"), .str (codes "Diesel alto azufre")]
  , rows := [[codes "5", codes "1", codes "2", codes "3"],
             [codes "5", codes "4", codes "5", codes "6"]] }

/-- Concrete cleaned import table with dates 1 and 2 (the merge example). -/
def tablaImpDemo : List FilaLimpia :=
  [⟨1, some ⟨10, 0⟩, some ⟨11, 0⟩, none⟩, ⟨2, some ⟨20, 0⟩, none, some ⟨21, 0⟩⟩]

/-- Concrete cleaned consumption table with dates 2 and 3 (the merge
example). -/
def tablaConDemo : List FilaLimpia :=
  [⟨2, some ⟨30, 0⟩, some ⟨31, 0⟩, none⟩, ⟨3, none, some ⟨40, 0⟩, some ⟨41, 0⟩⟩]

/-!  Theorems.  First the string-level facts behind the column normalizer. -/

theorem lowerCode_lowerCode (n : Nat) : lowerCode (lowerCode n) = lowerCode n := by
  simp only [lowerCode]
  split
  · rename_i h
    have hne : ¬ (65 ≤ n + 32 ∧ n + 32 ≤ 90) := by omega
    rw [if_neg hne]
  · rfl

theorem isSpaceCode_eq_true_iff (n : Nat) :
    isSpaceCode n = true ↔ (n = 9 ∨ n = 10 ∨ n = 11 ∨ n = 12 ∨ n = 13 ∨ n = 32) := by
  unfold isSpaceCode
  simp [Nat.beq_eq_true_eq]
  tauto

theorem isSpaceCode_lowerCode (n : Nat) : isSpaceCode (lowerCode n) = isSpaceCode n := by
  rw [Bool.eq_iff_iff, isSpaceCode_eq_true_iff, isSpaceCode_eq_true_iff]
  unfold lowerCode
  split
  · rename_i h; omega
  · exact Iff.rfl

theorem splitOnP_ne_nil (p : Nat → Bool) (l : Str) : l.splitOnP p ≠ [] := by
  induction l with
  | nil => simp [List.splitOnP_nil]
  | cons x xs ih =>
    rw [List.splitOnP_cons]
    split
    · simp
    · cases h : xs.splitOnP p with
      | nil => exact absurd h ih
      | cons a t => simp [List.modifyHead]

theorem splitOnP_all_not (p : Nat → Bool) (l : Str) (h : ∀ c ∈ l, p c = false) :
    l.splitOnP p = [l] := by
  induction l with
  | nil => simp [List.splitOnP_nil]
  | cons x xs ih =>
    rw [List.splitOnP_cons, h x (by simp)]
    simp only [Bool.false_eq_true, if_false]
    rw [ih (fun c hc => h c (by simp [hc]))]
    rfl

theorem splitOnP_append_sep (p : Nat → Bool) (w r : Str) (x : Nat)
    (hw : ∀ c ∈ w, p c = false) (hx : p x = true) :
    (w ++ x :: r).splitOnP p = w :: r.splitOnP p := by
  induction w with
  | nil => simp [List.splitOnP_cons, hx]
  | cons c w2 ih =>
    rw [List.cons_append, List.splitOnP_cons, hw c (by simp)]
    simp only [Bool.false_eq_true, if_false]
    rw [ih (fun d hd => hw d (by simp [hd]))]
    rfl

theorem mem_splitOnP_not (p : Nat → Bool) (l : Str) :
    ∀ w ∈ l.splitOnP p, ∀ c ∈ w, p c = false := by
  induction l with
  | nil => intro w hw; rw [List.splitOnP_nil] at hw; simp at hw; simp [hw]
  | cons x xs ih =>
    intro w hw
    rw [List.splitOnP_cons] at hw
    by_cases hx : p x = true
    · rw [if_pos hx] at hw
      rcases List.mem_cons.mp hw with h | h
      · simp [h]
      · exact ih w h
    · rw [if_neg hx] at hw
      cases hsp : xs.splitOnP p with
      | nil => exact absurd hsp (splitOnP_ne_nil p xs)
      | cons a t =>
        rw [hsp] at hw
        simp only [List.modifyHead] at hw
        rcases List.mem_cons.mp hw with h | h
        · subst h
          intro c hc
          rcases List.mem_cons.mp hc with h | h
          · subst h; exact Bool.eq_false_iff.mpr hx
          · exact ih a (by rw [hsp]; simp) c h
        · exact ih w (by rw [hsp]; simp [h])

theorem words_nonempty_nospace (s : Str) :
    ∀ w ∈ words s, w ≠ [] ∧ ∀ c ∈ w, isSpaceCode c = false := by
  intro w hw
  unfold words at hw
  have h2 := List.mem_filter.mp hw
  refine ⟨by simpa using h2.2, ?_⟩
  exact mem_splitOnP_not isSpaceCode s w h2.1

theorem words_joinWords (ws : List Str)
    (h : ∀ w ∈ ws, w ≠ [] ∧ ∀ c ∈ w, isSpaceCode c = false) :
    words (joinWords ws) = ws := by
  induction ws with
  | nil => rfl
  | cons w ws2 ih =>
    cases ws2 with
    | nil =>
      show words w = [w]
      unfold words
      rw [splitOnP_all_not isSpaceCode w (h w (by simp)).2]
      have hne : w ≠ [] := (h w (by simp)).1
      have hie : w.isEmpty = false := by simpa [List.isEmpty_iff] using hne
      simp [hie]
    | cons w2 ws3 =>
      show words (w ++ 32 :: joinWords (w2 :: ws3)) = w :: w2 :: ws3
      unfold words
      rw [splitOnP_append_sep isSpaceCode w _ 32 (h w (by simp)).2 (by rfl)]
      have hne : w ≠ [] := (h w (by simp)).1
      have hie : w.isEmpty = false := by simpa [List.isEmpty_iff] using hne
      rw [List.filter_cons_of_pos (by simp [hie])]
      have := ih (fun u hu => h u (by simp [hu]))
      unfold words at this
      rw [this]

theorem modifyHead_cons_map (f : Nat → Nat) (x : Nat) (L : List Str) :
    List.modifyHead (List.cons (f x)) (L.map (List.map f)) =
      (List.modifyHead (List.cons x) L).map (List.map f) := by
  cases L with
  | nil => rfl
  | cons h t => rfl

theorem splitOnP_map_lower (l : Str) :
    (l.map lowerCode).splitOnP isSpaceCode =
      (l.splitOnP isSpaceCode).map (List.map lowerCode) := by
  induction l with
  | nil => simp [List.splitOnP_nil]
  | cons x xs ih =>
    rw [List.map_cons, List.splitOnP_cons, List.splitOnP_cons, isSpaceCode_lowerCode]
    by_cases hx : isSpaceCode x = true
    · rw [if_pos hx, if_pos hx, ih]; rfl
    · rw [if_neg hx, if_neg hx, ih, modifyHead_cons_map]

theorem words_lowerStr (s : Str) : words (lowerStr s) = (words s).map lowerStr := by
  unfold words lowerStr
  rw [splitOnP_map_lower, List.filter_map]
  congr 1
  apply List.filter_congr
  intro w _
  simp only [Function.comp]
  cases w <;> rfl

theorem lowerStr_joinWords (ws : List Str) :
    lowerStr (joinWords ws) = joinWords (ws.map lowerStr) := by
  induction ws with
  | nil => rfl
  | cons w ws2 ih =>
    cases ws2 with
    | nil => rfl
    | cons w2 ws3 =>
      show lowerStr (w ++ 32 :: joinWords (w2 :: ws3)) = _
      unfold lowerStr at *
      rw [List.map_append, List.map_cons, ih]
      rfl

theorem lowerStr_idem (s : Str) : lowerStr (lowerStr s) = lowerStr s := by
  unfold lowerStr
  rw [List.map_map]
  apply List.map_congr_left
  intro c _
  exact lowerCode_lowerCode c

theorem replaceNewline_of_no10 (s : Str) (h : ∀ c ∈ s, c ≠ 10) :
    replaceNewline s = s := by
  unfold replaceNewline
  conv_rhs => rw [← List.map_id s]
  apply List.map_congr_left
  intro c hc
  simp [beq_iff_eq, h c hc]

theorem mem_joinWords (ws : List Str) : ∀ d ∈ joinWords ws, d = 32 ∨ ∃ w ∈ ws, d ∈ w := by
  induction ws with
  | nil => intro d hd; simp [joinWords] at hd
  | cons w ws2 ih =>
    cases ws2 with
    | nil => intro d hd; right; exact ⟨w, by simp, hd⟩
    | cons w2 ws3 =>
      intro d hd
      simp only [joinWords] at hd
      rcases List.mem_append.mp hd with h | h
      · right; exact ⟨w, by simp, h⟩
      · rcases List.mem_cons.mp h with h | h
        · left; exact h
        · rcases ih d h with h | ⟨u, hu, hdu⟩
          · left; exact h
          · right; exact ⟨u, by simp [hu], hdu⟩

theorem lowerCode_ne_10 (d : Nat) (h : d ≠ 10) : lowerCode d ≠ 10 := by
  unfold lowerCode
  split
  · omega
  · exact h

theorem no10_norm (u : Str) : ∀ c ∈ lowerStr (joinWords (words u)), c ≠ 10 := by
  intro c hc
  unfold lowerStr at hc
  rcases List.mem_map.mp hc with ⟨d, hd, hcd⟩
  subst hcd
  rcases mem_joinWords _ d hd with h | ⟨w, hw, hdw⟩
  · subst h; decide
  · apply lowerCode_ne_10
    intro hd10
    have := (words_nonempty_nospace u w hw).2 d hdw
    rw [hd10] at this
    exact absurd this (by decide)

theorem normaliza_col_str_idem (s : Str) :
    normaliza_col_str (normaliza_col_str s) = normaliza_col_str s := by
  have hws := words_nonempty_nospace (replaceNewline s)
  show normaliza_col_str (lowerStr (joinWords (words (replaceNewline s)))) = _
  unfold normaliza_col_str
  rw [replaceNewline_of_no10 _ (no10_norm (replaceNewline s))]
  rw [words_lowerStr, words_joinWords _ hws]
  rw [lowerStr_joinWords, lowerStr_joinWords, List.map_map]
  congr 1
  apply List.map_congr_left
  intro w _
  exact lowerStr_idem w

/-- C7: the column normalizer is idempotent: for every input label s, string
or not, normalize (normalize s) = normalize s. -/
theorem normaliza_col_idempotente (c : ColLabel) :
    normaliza_col (normaliza_col c) = normaliza_col c := by
  cases c with
  | str s =>
    show ColLabel.str (normaliza_col_str (normaliza_col_str s)) = _
    rw [normaliza_col_str_idem]
    rfl
  | nonstr v => rfl

/-! Header locator. -/

theorem detectaDesde_none (raw : List (List Str)) : ∀ i,
    (detectaDesde i raw = none ↔ ∀ r ∈ raw, filaTieneFecha r = false) := by
  induction raw with
  | nil => intro i; simp [detectaDesde]
  | cons row rest ih =>
    intro i
    by_cases hr : filaTieneFecha row = true
    · simp [detectaDesde, hr]
    · have hr2 : filaTieneFecha row = false := Bool.eq_false_iff.mpr hr
      simp only [detectaDesde, hr2, Bool.false_eq_true, if_false]
      rw [ih (i + 1)]
      constructor
      · intro h r hrr
        rcases List.mem_cons.mp hrr with h2 | h2
        · subst h2; exact hr2
        · exact h r h2
      · intro h r hrr
        exact h r (by simp [hrr])

theorem detectaDesde_some (raw : List (List Str)) : ∀ i k,
    (detectaDesde i raw = some k ↔
      ∃ j, j < raw.length ∧ k = i + j ∧ filaTieneFecha (raw.getD j []) = true ∧
        ∀ m, m < j → filaTieneFecha (raw.getD m []) = false) := by
  induction raw with
  | nil => intro i k; simp [detectaDesde]
  | cons row rest ih =>
    intro i k
    by_cases hr : filaTieneFecha row = true
    · simp only [detectaDesde, hr, if_true]
      constructor
      · intro h
        have hk : k = i := by injection h; omega
        exact ⟨0, by simp, by omega, by simpa using hr, by omega⟩
      · rintro ⟨j, hj, hk, hhit, hbefore⟩
        cases j with
        | zero => simp [hk]
        | succ j2 =>
          have := hbefore 0 (by omega)
          simp only [List.getD_cons_zero] at this
          rw [this] at hr
          cases hr
    · have hr2 : filaTieneFecha row = false := Bool.eq_false_iff.mpr hr
      simp only [detectaDesde, hr2, Bool.false_eq_true, if_false]
      rw [ih (i + 1) k]
      constructor
      · rintro ⟨j, hj, hk, hhit, hbefore⟩
        refine ⟨j + 1, by simpa using hj, by omega, by simpa using hhit, ?_⟩
        intro m hm
        cases m with
        | zero => simpa using hr2
        | succ m2 => simpa using hbefore m2 (by omega)
      · rintro ⟨j, hj, hk, hhit, hbefore⟩
        cases j with
        | zero =>
          simp only [List.getD_cons_zero] at hhit
          rw [hhit] at hr2
          cases hr2
        | succ j2 =>
          refine ⟨j2, by simpa using hj, by omega, by simpa using hhit, ?_⟩
          intro m hm
          simpa using hbefore (m + 1) (by omega)

/-- C3: the header locator returns the zero-based index of the first row
containing a cell whose stripped, lower-cased value equals exactly "fecha";
substring occurrences do not match; it fails (the raised ValueError,
modelled as none, with no partial result) exactly when no row has such a
cell. -/
theorem detecta_header_caracterizacion (raw : List (List Str)) :
    (∀ k, detecta_header raw = some k ↔
        k < raw.length ∧ filaTieneFecha (raw.getD k []) = true ∧
          ∀ m, m < k → filaTieneFecha (raw.getD m []) = false) ∧
    (detecta_header raw = none ↔ ∀ r ∈ raw, filaTieneFecha r = false) ∧
    matchFecha (codes "Fecha2024") = false ∧
    matchFecha (codes " FECHA ") = true ∧
    matchFecha (codes "Fecha") = true ∧
    (∀ row : List Str, filaTieneFecha row = true ↔ ∃ cell ∈ row, matchFecha cell = true) := by
  refine ⟨?_, ?_, by decide, by decide, by decide, ?_⟩
  · intro k
    rw [show detecta_header raw = detectaDesde 0 raw from rfl, detectaDesde_some raw 0 k]
    constructor
    · rintro ⟨j, hj, hk, hhit, hbefore⟩
      exact ⟨by omega, by rwa [show k = j by omega], fun m hm => hbefore m (by omega)⟩
    · rintro ⟨hk, hhit, hbefore⟩
      exact ⟨k, hk, by omega, hhit, hbefore⟩
  · exact detectaDesde_none raw 0
  · intro row
    unfold filaTieneFecha
    simp [List.any_eq_true]

/-! Missing-column validation. -/

theorem DecNum.toRat_add (a b : DecNum) : (DecNum.add a b).toRat = a.toRat + b.toRat := by
  unfold DecNum.add DecNum.toRat
  have h1 : ((10 : ℚ) ^ a.exp) ≠ 0 := by positivity
  have h2 : ((10 : ℚ) ^ b.exp) ≠ 0 := by positivity
  rw [div_add_div _ _ h1 h2, ← pow_add]
  push_cast
  ring

/-- C1: in the 2025 cleaner every produced row's combined diesel column is
the fillna(0) sum of the two diesel grades; semantically missing + x = x
and missing + missing = 0 (the combined column has non-optional type, so it
is never missing); on source pairs (5, missing), (missing, missing), (3, 2)
the pipeline yields 5, 0, 5. -/
theorem diesel_combinacion :
    (∀ (pdate : Str → Option Int) (sh : SheetData) (out : List FilaImp),
        carga_y_limpia_importacion pdate sh = .ok out →
          ∀ r ∈ out, ∃ f : FilaCinco, r = combina_diesel f ∧
            r.Diesel_Imp = DecNum.add (f.bajo.getD DecNum.zero) (f.ultra.getD DecNum.zero)) ∧
    (∀ a b : Option DecNum,
        (DecNum.add (a.getD DecNum.zero) (b.getD DecNum.zero)).toRat =
          (a.map DecNum.toRat).getD 0 + (b.map DecNum.toRat).getD 0) ∧
    carga_y_limpia_importacion pdateDigits shDiesel =
      .ok [⟨1, some ⟨8, 0⟩, some ⟨9, 0⟩, ⟨5, 0⟩⟩,
           ⟨2, some ⟨8, 0⟩, some ⟨9, 0⟩, ⟨0, 0⟩⟩,
           ⟨3, some ⟨8, 0⟩, some ⟨9, 0⟩, ⟨5, 0⟩⟩] ∧
    DecNum.toRat ⟨5, 0⟩ = 5 ∧ DecNum.toRat ⟨0, 0⟩ = 0 := by
  refine ⟨?_, ?_, by rfl, by norm_num [DecNum.toRat], by norm_num [DecNum.toRat]⟩
  · intro pdate sh out h r hr
    simp only [carga_y_limpia_importacion] at h
    split at h
    · injection h with h2
      rw [← h2] at hr
      rcases List.mem_map.mp hr with ⟨f, _, hrf⟩
      exact ⟨f, hrf.symm, by rw [← hrf]; rfl⟩
    · cases h
  · intro a b
    rw [DecNum.toRat_add]
    cases a <;> cases b <;> simp [DecNum.zero, DecNum.toRat]

/-- Witness for the diesel-combination theorem: its pipeline-level part
applied to the concrete 2025 sheet and the first produced row. -/
theorem diesel_combinacion_testigo :
    carga_y_limpia_importacion pdateDigits shDiesel =
      .ok [⟨1, some ⟨8, 0⟩, some ⟨9, 0⟩, ⟨5, 0⟩⟩,
           ⟨2, some ⟨8, 0⟩, some ⟨9, 0⟩, ⟨0, 0⟩⟩,
           ⟨3, some ⟨8, 0⟩, some ⟨9, 0⟩, ⟨5, 0⟩⟩] ∧
    (∃ f : FilaCinco,
        (⟨1, some ⟨8, 0⟩, some ⟨9, 0⟩, ⟨5, 0⟩⟩ : FilaImp) = combina_diesel f ∧
          (⟨1, some ⟨8, 0⟩, some ⟨9, 0⟩, ⟨5, 0⟩⟩ : FilaImp).Diesel_Imp =
            DecNum.add (f.bajo.getD DecNum.zero) (f.ultra.getD DecNum.zero)) :=
  ⟨by rfl,
   diesel_combinacion.1 pdateDigits shDiesel
     [⟨1, some ⟨8, 0⟩, some ⟨9, 0⟩, ⟨5, 0⟩⟩,
      ⟨2, some ⟨8, 0⟩, some ⟨9, 0⟩, ⟨0, 0⟩⟩,
      ⟨3, some ⟨8, 0⟩, some ⟨9, 0⟩, ⟨5, 0⟩⟩] (by rfl)
     ⟨1, some ⟨8, 0⟩, some ⟨9, 0⟩, ⟨5, 0⟩⟩ (by decide)⟩

/-! Sorting helpers shared by the cleaners and the merger. -/

theorem ordenaPorFecha_perm {α : Type} (key : α → Int) (l : List α) :
    (ordenaPorFecha key l).Perm l := List.perm_insertionSort _ l

theorem ordenaPorFecha_sorted {α : Type} (key : α → Int) (l : List α) :
    (ordenaPorFecha key l).Pairwise (fun a b => key a ≤ key b) := by
  unfold ordenaPorFecha
  exact List.sorted_insertionSort (fun a b => key a ≤ key b) l

theorem length_filterMap_isSome {α β : Type} (g : α → Option β) (l : List α) :
    (l.filterMap g).length = (l.filter (fun a => (g a).isSome)).length := by
  induction l with
  | nil => rfl
  | cons a t ih =>
    cases hg : g a with
    | none => simp [List.filterMap_cons, hg, List.filter_cons, ih]
    | some b => simp [List.filterMap_cons, hg, List.filter_cons, ih]

/-! Per-cell cleaning of embedded separators and placeholders. -/

/-- C10: the per-cell cleaning removes the comma, the space and the double
dash at every occurrence anywhere in the cell before numeric parsing: a
cell of exactly two dashes becomes empty and parses to missing, while
embedded occurrences among digits leave the remaining digits to parse as a
number. -/
theorem limpia_celda_subcadenas :
    (∀ s : Str, limpiaCelda s =
        toNumeric (quitaDashDash (quitaTodos 32 (quitaTodos 44 s)))) ∧
    (∀ (x : Nat) (s : Str), x ∉ quitaTodos x s) ∧
    (∀ (x c : Nat) (s : Str), c ∈ quitaTodos x s ↔ c ∈ s ∧ c ≠ x) ∧
    limpiaCelda (codes "--") = none ∧
    limpiaCelda (codes "1--2") = some ⟨12, 0⟩ ∧
    limpiaCelda (codes "1,2 3") = some ⟨123, 0⟩ ∧
    quitaDashDash (codes "--") = codes "" ∧
    quitaDashDash (codes "1--2") = codes "12" ∧
    quitaTodos 44 (codes "1,2 3") = codes "12 3" ∧
    quitaTodos 32 (codes "12 3") = codes "123" := by
  refine ⟨fun s => rfl, ?_, ?_, by rfl, by rfl, by rfl, by rfl, by rfl, by rfl, by rfl⟩
  · intro x s hx
    unfold quitaTodos at hx
    have := (List.mem_filter.mp hx).2
    simp at this
  · intro x c s
    unfold quitaTodos
    rw [List.mem_filter]
    simp

/-! Row filtering by date validity. -/

/-- C4: the cleaner keeps exactly the rows whose date cell parses (up to the
date sort): the output is a permutation of the date-valid input rows with
their value cells cleaned, its length is the number of date-valid rows, and
a row with a valid date but an unparseable value cell such as the double
dash survives with that cell made missing, as the concrete sheet shows
end to end. -/
theorem filas_fecha_invalida :
    (∀ (pdate : Str → Option Int) (jF jR jS jD : Nat) (rows : List (List Str)),
        (limpiaFilas pdate jF jR jS jD rows).Perm
          (rows.filterMap (fun r => (pdate (celda r jF)).map (fun d =>
            (⟨d, limpiaCelda (celda r jR), limpiaCelda (celda r jS),
              limpiaCelda (celda r jD)⟩ : FilaLimpia))))) ∧
    (∀ (pdate : Str → Option Int) (jF jR jS jD : Nat) (rows : List (List Str)),
        (limpiaFilas pdate jF jR jS jD rows).length =
          (rows.filter (fun r => (pdate (celda r jF)).isSome)).length) ∧
    limpiaCelda (codes "--") = none ∧
    pdateDigits (codes "Total") = none ∧
    carga_y_limpia_hoja pdateDigits shCuatro =
      .ok [⟨7, some ⟨1250, 0⟩, none, some ⟨4, 0⟩⟩] := by
  have h1 : ∀ (pdate : Str → Option Int) (jF jR jS jD : Nat) (rows : List (List Str)),
      (limpiaFilas pdate jF jR jS jD rows).Perm
        (rows.filterMap (fun r => (pdate (celda r jF)).map (fun d =>
          (⟨d, limpiaCelda (celda r jR), limpiaCelda (celda r jS),
            limpiaCelda (celda r jD)⟩ : FilaLimpia)))) := by
    intro pdate jF jR jS jD rows
    simp only [limpiaFilas]
    refine ((ordenaPorFecha_perm _ _).map _).trans ?_
    rw [List.map_filterMap]
    apply List.Perm.of_eq
    apply List.filterMap_congr
    intro r _
    rw [Option.map_map]
    rfl
  refine ⟨h1, ?_, by rfl, by rfl, by rfl⟩
  intro pdate jF jR jS jD rows
  rw [(h1 pdate jF jR jS jD rows).length_eq, length_filterMap_isSome]
  congr 1
  apply List.filter_congr
  intro r _
  cases pdate (celda r jF) <;> rfl

/-! Wide-to-long reshaping. -/

/-- C8: the reshaper emits one long row per (original row, non-date column)
pair, three blocks of n rows each in column order, every row carrying the
original date and value, the product tag obtained by literal substring
substitution of the column label, and the caller's origin tag on every
emitted row. -/
theorem ancho_a_largo :
    (∀ (df : List FilaLimpia) (origen : Str),
        wide_to_long df origen =
          (df.map fun r => (⟨r.fecha, codes "regular", r.regular, origen⟩ : FilaLarga))
          ++ (df.map fun r => (⟨r.fecha, codes "superior", r.superior, origen⟩ : FilaLarga))
          ++ (df.map fun r => (⟨r.fecha, codes "diesel", r.diesel, origen⟩ : FilaLarga))) ∧
    (∀ (df : List FilaLimpia) (origen : Str),
        (wide_to_long df origen).length = 3 * df.length) ∧
    (∀ (df : List FilaLimpia) (origen : Str),
        ∀ l ∈ wide_to_long df origen, l.origen = origen) ∧
    productoTag (codes "gasolina regular") = codes "regular" ∧
    productoTag (codes "gasolina superior") = codes "superior" ∧
    productoTag (codes "diesel alto azufre") = codes "diesel" := by
  have h1 : ∀ (df : List FilaLimpia) (origen : Str),
      wide_to_long df origen =
        (df.map fun r => (⟨r.fecha, codes "regular", r.regular, origen⟩ : FilaLarga))
        ++ (df.map fun r => (⟨r.fecha, codes "superior", r.superior, origen⟩ : FilaLarga))
        ++ (df.map fun r => (⟨r.fecha, codes "diesel", r.diesel, origen⟩ : FilaLarga)) := by
    intro df origen
    unfold wide_to_long melt
    rw [List.map_append, List.map_append, List.map_map, List.map_map, List.map_map]
    rfl
  refine ⟨h1, ?_, ?_, by rfl, by rfl, by rfl⟩
  · intro df origen
    rw [h1]
    simp only [List.length_append, List.length_map]
    ring
  · intro df origen l hl
    rw [h1] at hl
    rcases List.mem_append.mp hl with h | h
    · rcases List.mem_append.mp h with h2 | h2 <;>
        · rcases List.mem_map.mp h2 with ⟨r, _, hr⟩
          rw [← hr]
    · rcases List.mem_map.mp h with ⟨r, _, hr⟩
      rw [← hr]

/-! Cleaned-table invariant. -/

/-- Counterexample to C6 as stated: the cleaner performs no
date deduplication, so a sheet repeating the same valid date yields two
output rows with that date — neither one row per valid date nor a strictly
ascending order. -/
theorem invariante_tabla_contra :
    carga_y_limpia_hoja pdateDigits shDup =
      .ok [⟨5, some ⟨1, 0⟩, some ⟨2, 0⟩, some ⟨3, 0⟩⟩,
           ⟨5, some ⟨4, 0⟩, some ⟨5, 0⟩, some ⟨6, 0⟩⟩] ∧
    ¬ (List.Pairwise (fun a b : FilaLimpia => a.fecha < b.fecha)
        [⟨5, some ⟨1, 0⟩, some ⟨2, 0⟩, some ⟨3, 0⟩⟩,
         ⟨5, some ⟨4, 0⟩, some ⟨5, 0⟩, some ⟨6, 0⟩⟩]) ∧
    ¬ (([⟨5, some ⟨1, 0⟩, some ⟨2, 0⟩, some ⟨3, 0⟩⟩,
         ⟨5, some ⟨4, 0⟩, some ⟨5, 0⟩, some ⟨6, 0⟩⟩] : List FilaLimpia).map
          FilaLimpia.fecha).Nodup := by
  refine ⟨by rfl, ?_, by decide⟩
  intro h
  have h2 := (List.pairwise_cons.mp h).1 _ (List.mem_singleton_self _)
  exact absurd h2 (by decide)

/-- Sortedness of the shared row-cleaning stage. -/
theorem limpiaFilas_sorted (pdate : Str → Option Int) (jF jR jS jD : Nat)
    (rows : List (List Str)) :
    (limpiaFilas pdate jF jR jS jD rows).Pairwise (fun a b => a.fecha ≤ b.fecha) := by
  simp only [limpiaFilas]
  rw [List.pairwise_map]
  exact ordenaPorFecha_sorted (fun p : Int × List Str => p.1) _

theorem limpiaFilas2025_sorted (pdate : Str → Option Int) (jF jR jS jB jU : Nat)
    (rows : List (List Str)) :
    (limpiaFilas2025 pdate jF jR jS jB jU rows).Pairwise (fun a b => a.fecha ≤ b.fecha) := by
  simp only [limpiaFilas2025]
  rw [List.pairwise_map]
  exact ordenaPorFecha_sorted (fun p : Int × List Str => p.1) _

/-- One output row per valid-date input row for the shared cleaning stage. -/
theorem limpiaFilas_length (pdate : Str → Option Int) (jF jR jS jD : Nat)
    (rows : List (List Str)) :
    (limpiaFilas pdate jF jR jS jD rows).length =
      (rows.filter (fun r => (pdate (celda r jF)).isSome)).length := by
  simp only [limpiaFilas]
  rw [List.length_map, (ordenaPorFecha_perm _ _).length_eq, length_filterMap_isSome]
  congr 1
  apply List.filter_congr
  intro r _
  cases pdate (celda r jF) <;> rfl

theorem limpiaFilas2025_length (pdate : Str → Option Int) (jF jR jS jB jU : Nat)
    (rows : List (List Str)) :
    (limpiaFilas2025 pdate jF jR jS jB jU rows).length =
      (rows.filter (fun r => (pdate (celda r jF)).isSome)).length := by
  simp only [limpiaFilas2025]
  rw [List.length_map, (ordenaPorFecha_perm _ _).length_eq, length_filterMap_isSome]
  congr 1
  apply List.filter_congr
  intro r _
  cases pdate (celda r jF) <;> rfl

/-- Over a table sorted by non-decreasing key, distinct keys and strictly
ascending order are equivalent. -/
theorem nodup_iff_pairwise_lt {α : Type} (key : α → Int) (l : List α)
    (hle : l.Pairwise (fun a b => key a ≤ key b)) :
    ((l.map key).Nodup ↔ l.Pairwise (fun a b => key a < key b)) := by
  constructor
  · intro hnd
    have hne : l.Pairwise (fun a b => key a ≠ key b) := List.pairwise_map.mp hnd
    exact (hle.and hne).imp (fun h => lt_of_le_of_ne h.1 h.2)
  · intro hlt
    exact List.pairwise_map.mpr (hlt.imp (fun h => ne_of_lt h))

/-- C6 (amended): each cleaner's output has one row per valid-date input row
(the date cell at the located fecha column parses; no date deduplication is
performed), rows sorted by non-decreasing date, and the order is strictly
ascending — hence one row per date — exactly when the produced dates are
pairwise distinct; every non-date cell is a parsed number or a missing
marker (the Option-number cell type), the rows being a list indexed
contiguously from zero. -/
theorem invariante_tabla_limpia :
    (∀ (pdate : Str → Option Int) (sh : SheetData) (out : List FilaLimpia),
        carga_y_limpia_hoja pdate sh = .ok out →
          out.length = (sh.rows.filter (fun r =>
            (pdate (celda r (colIdx ((sh.header.map normaliza_col).map renombra)
              (codes "fecha")))).isSome)).length ∧
          out.Pairwise (fun a b => a.fecha ≤ b.fecha) ∧
          ((out.map FilaLimpia.fecha).Nodup ↔
            out.Pairwise (fun a b => a.fecha < b.fecha))) ∧
    (∀ (pdate : Str → Option Int) (sh : SheetData) (out : List FilaImp),
        carga_y_limpia_importacion pdate sh = .ok out →
          out.length = (sh.rows.filter (fun r =>
            (pdate (celda r (colIdx (sh.header.map normaliza_col)
              (codes "fecha")))).isSome)).length ∧
          out.Pairwise (fun a b => a.fecha ≤ b.fecha) ∧
          ((out.map FilaImp.fecha).Nodup ↔
            out.Pairwise (fun a b => a.fecha < b.fecha))) := by
  constructor
  · intro pdate sh out h
    simp only [carga_y_limpia_hoja] at h
    split at h
    · injection h with h2
      have hle : out.Pairwise (fun a b => a.fecha ≤ b.fecha) := by
        rw [← h2]
        exact limpiaFilas_sorted _ _ _ _ _ _
      refine ⟨?_, hle, nodup_iff_pairwise_lt FilaLimpia.fecha out hle⟩
      rw [← h2, limpiaFilas_length]
    · cases h
  · intro pdate sh out h
    simp only [carga_y_limpia_importacion] at h
    split at h
    · injection h with h2
      have hle : out.Pairwise (fun a b => a.fecha ≤ b.fecha) := by
        rw [← h2, List.pairwise_map]
        exact limpiaFilas2025_sorted _ _ _ _ _ _ _
      refine ⟨?_, hle, nodup_iff_pairwise_lt FilaImp.fecha out hle⟩
      rw [← h2, List.length_map, limpiaFilas2025_length]
    · cases h

/-- Witness for the amended invariant: its two conditional parts applied to
the concrete sheets. -/
theorem invariante_tabla_limpia_testigo :
    carga_y_limpia_hoja pdateDigits shCuatro =
      .ok [⟨7, some ⟨1250, 0⟩, none, some ⟨4, 0⟩⟩] ∧
    (([⟨7, some ⟨1250, 0⟩, none, some ⟨4, 0⟩⟩] : List FilaLimpia).length =
        (shCuatro.rows.filter (fun r =>
          (pdateDigits (celda r (colIdx ((shCuatro.header.map normaliza_col).map renombra)
            (codes "fecha")))).isSome)).length ∧
      ([⟨7, some ⟨1250, 0⟩, none, some ⟨4, 0⟩⟩] : List FilaLimpia).Pairwise
        (fun a b => a.fecha ≤ b.fecha) ∧
      ((([⟨7, some ⟨1250, 0⟩, none, some ⟨4, 0⟩⟩] : List FilaLimpia).map
          FilaLimpia.fecha).Nodup ↔
        ([⟨7, some ⟨1250, 0⟩, none, some ⟨4, 0⟩⟩] : List FilaLimpia).Pairwise
          (fun a b => a.fecha < b.fecha))) :=
  ⟨by rfl, invariante_tabla_limpia.1 pdateDigits shCuatro _ (by rfl)⟩

/-! Outer merge. -/

theorem filtro_fecha_nil_iff (con : List FilaLimpia) (d : Int) :
    con.filter (fun b => b.fecha == d) = [] ↔ d ∉ con.map FilaLimpia.fecha := by
  rw [List.filter_eq_nil_iff]
  constructor
  · intro h hd
    rcases List.mem_map.mp hd with ⟨b, hb, hbd⟩
    exact h b hb (by simp [hbd])
  · intro h b hb hbeq
    rw [beq_iff_eq] at hbeq
    exact h (List.mem_map.mpr ⟨b, hb, hbeq⟩)

theorem filtro_fecha_nodup (con : List FilaLimpia)
    (hcon : (con.map FilaLimpia.fecha).Nodup) (d : Int) :
    con.filter (fun b => b.fecha == d) = [] ∨
      ∃ b, con.filter (fun b => b.fecha == d) = [b] ∧ b.fecha = d := by
  induction con with
  | nil => left; rfl
  | cons c rest ih =>
    rw [List.map_cons, List.nodup_cons] at hcon
    by_cases hc : c.fecha = d
    · right
      refine ⟨c, ?_, hc⟩
      rw [List.filter_cons_of_pos (by simp [hc])]
      have hrest : rest.filter (fun b => b.fecha == d) = [] := by
        rw [filtro_fecha_nil_iff]
        rw [← hc]
        exact hcon.1
      rw [hrest]
    · rw [List.filter_cons_of_neg (by simp [hc])]
      exact ih hcon.2

theorem paresDe_of_nil (con : List FilaLimpia) (a : FilaLimpia)
    (h : con.filter (fun b => b.fecha == a.fecha) = []) :
    paresDe con a = [soloImp a] := by
  unfold paresDe
  rw [h]

theorem paresDe_of_ne_nil (con : List FilaLimpia) (a : FilaLimpia)
    (h : con.filter (fun b => b.fecha == a.fecha) ≠ []) :
    paresDe con a = (con.filter (fun b => b.fecha == a.fecha)).map (mergeAmbos a) := by
  unfold paresDe
  cases h2 : con.filter (fun b => b.fecha == a.fecha) with
  | nil => exact absurd h2 h
  | cons c t => rfl

theorem fechas_paresDe (con : List FilaLimpia)
    (hcon : (con.map FilaLimpia.fecha).Nodup) (a : FilaLimpia) :
    (paresDe con a).map FilaComb.fecha = [a.fecha] := by
  rcases filtro_fecha_nodup con hcon a.fecha with h | ⟨b, hb, hbf⟩
  · rw [paresDe_of_nil con a h]
    rfl
  · rw [paresDe_of_ne_nil con a (by rw [hb]; simp), hb]
    rfl

theorem fechas_outer_merge (imp con : List FilaLimpia)
    (hcon : (con.map FilaLimpia.fecha).Nodup) :
    (outer_merge imp con).map FilaComb.fecha =
      imp.map FilaLimpia.fecha ++
        (con.filter (fun b => !imp.any (fun a => a.fecha == b.fecha))).map
          FilaLimpia.fecha := by
  unfold outer_merge
  rw [List.map_append]
  congr 1
  · induction imp with
    | nil => rfl
    | cons a rest ih =>
      rw [List.map_cons, List.flatten_cons, List.map_append, fechas_paresDe con hcon a, ih]
      rfl
  · rw [List.map_map]
    rfl

theorem mem_outer_merge (imp con : List FilaLimpia) (r : FilaComb) :
    r ∈ outer_merge imp con ↔
      ((∃ a ∈ imp, ∃ b ∈ con, b.fecha = a.fecha ∧ r = mergeAmbos a b) ∨
        (∃ a ∈ imp, a.fecha ∉ con.map FilaLimpia.fecha ∧ r = soloImp a) ∨
        (∃ b ∈ con, b.fecha ∉ imp.map FilaLimpia.fecha ∧ r = soloCon b)) := by
  unfold outer_merge
  rw [List.mem_append, List.mem_flatten]
  constructor
  · rintro (⟨l, hl, hrl⟩ | h)
    · rcases List.mem_map.mp hl with ⟨a, ha, hla⟩
      subst hla
      by_cases hnil : con.filter (fun b => b.fecha == a.fecha) = []
      · rw [paresDe_of_nil con a hnil] at hrl
        rcases List.mem_singleton.mp hrl with rfl
        right; left
        exact ⟨a, ha, (filtro_fecha_nil_iff con a.fecha).mp hnil, rfl⟩
      · rw [paresDe_of_ne_nil con a hnil] at hrl
        rcases List.mem_map.mp hrl with ⟨b, hbf, hrb⟩
        have hb2 := List.mem_filter.mp hbf
        left
        exact ⟨a, ha, b, hb2.1, by simpa using hb2.2, hrb.symm⟩
    · rcases List.mem_map.mp h with ⟨b, hbf, hrb⟩
      have hb2 := List.mem_filter.mp hbf
      right; right
      refine ⟨b, hb2.1, ?_, hrb.symm⟩
      intro hmem
      rcases List.mem_map.mp hmem with ⟨a, ha, haf⟩
      have := hb2.2
      rw [Bool.not_eq_eq_eq_not, Bool.not_true, List.any_eq_false] at this
      have hfa : (a.fecha == b.fecha) = false := Bool.eq_false_iff.mpr (this a ha)
      rw [beq_eq_false_iff_ne] at hfa
      exact hfa haf
  · rintro (⟨a, ha, b, hb, hbf, rfl⟩ | ⟨a, ha, hnf, rfl⟩ | ⟨b, hb, hnf, rfl⟩)
    · left
      refine ⟨paresDe con a, List.mem_map.mpr ⟨a, ha, rfl⟩, ?_⟩
      have hbmem : b ∈ con.filter (fun b => b.fecha == a.fecha) :=
        List.mem_filter.mpr ⟨hb, by simp [hbf]⟩
      rw [paresDe_of_ne_nil con a (fun hh => by rw [hh] at hbmem; cases hbmem)]
      exact List.mem_map.mpr ⟨b, hbmem, rfl⟩
    · left
      refine ⟨paresDe con a, List.mem_map.mpr ⟨a, ha, rfl⟩, ?_⟩
      rw [paresDe_of_nil con a ((filtro_fecha_nil_iff con a.fecha).mpr hnf)]
      exact List.mem_singleton.mpr rfl
    · right
      apply List.mem_map.mpr
      refine ⟨b, List.mem_filter.mpr ⟨hb, ?_⟩, rfl⟩
      rw [Bool.not_eq_eq_eq_not, Bool.not_true, List.any_eq_false]
      intro a ha htrue
      have htrue2 : (a.fecha == b.fecha) = true := htrue
      rw [beq_iff_eq] at htrue2
      exact hnf (List.mem_map.mpr ⟨a, ha, htrue2⟩)

/-- C2: on cleaned inputs (per the CleanedTable invariant, one row per
date), the merger is a full outer join on the date column: each date of
either input appears exactly once, output rows are sorted by ascending
date, a matched date carries both sides' values in the origin-suffixed
columns, and a date present in only one input has all of the other side's
columns missing. -/
theorem fusion_externa (imp con : List FilaLimpia)
    (himp : (imp.map FilaLimpia.fecha).Nodup)
    (hcon : (con.map FilaLimpia.fecha).Nodup) :
    ((series_de_tiempo imp con).map FilaComb.fecha).Nodup ∧
    (∀ d : Int, d ∈ (series_de_tiempo imp con).map FilaComb.fecha ↔
        d ∈ imp.map FilaLimpia.fecha ∨ d ∈ con.map FilaLimpia.fecha) ∧
    (series_de_tiempo imp con).Pairwise (fun a b => a.fecha ≤ b.fecha) ∧
    (∀ r ∈ series_de_tiempo imp con,
        ((∃ a ∈ imp, a.fecha = r.fecha ∧ r.Regular_Imp = a.regular ∧
            r.Superior_Imp = a.superior ∧ r.Diesel_Imp = a.diesel) ∨
          (r.fecha ∉ imp.map FilaLimpia.fecha ∧ r.Regular_Imp = none ∧
            r.Superior_Imp = none ∧ r.Diesel_Imp = none)) ∧
        ((∃ b ∈ con, b.fecha = r.fecha ∧ r.Regular_Con = b.regular ∧
            r.Superior_Con = b.superior ∧ r.Diesel_Con = b.diesel) ∨
          (r.fecha ∉ con.map FilaLimpia.fecha ∧ r.Regular_Con = none ∧
            r.Superior_Con = none ∧ r.Diesel_Con = none))) := by
  have hperm : (series_de_tiempo imp con).Perm (outer_merge imp con) :=
    ordenaPorFecha_perm _ _
  have hfperm : ((series_de_tiempo imp con).map FilaComb.fecha).Perm
      ((outer_merge imp con).map FilaComb.fecha) := hperm.map _
  refine ⟨?_, ?_, ?_, ?_⟩
  · apply hfperm.nodup_iff.mpr
    rw [fechas_outer_merge imp con hcon, List.nodup_append]
    refine ⟨himp, ?_, ?_⟩
    · have hsub : List.Sublist ((con.filter (fun b => !imp.any (fun a => a.fecha == b.fecha))).map
          FilaLimpia.fecha) (con.map FilaLimpia.fecha) :=
        (List.filter_sublist con).map FilaLimpia.fecha
      exact List.Nodup.sublist hsub hcon
    · intro d hd1 hd2
      rcases List.mem_map.mp hd2 with ⟨b, hbf, hbd⟩
      have hb2 := List.mem_filter.mp hbf
      have hany : imp.any (fun a => a.fecha == b.fecha) = false := by
        have := hb2.2
        rwa [Bool.not_eq_eq_eq_not, Bool.not_true] at this
      rw [List.any_eq_false] at hany
      rcases List.mem_map.mp hd1 with ⟨a, ha, had⟩
      apply hany a ha
      show (a.fecha == b.fecha) = true
      rw [beq_iff_eq]
      rw [had, hbd]
  · intro d
    rw [hfperm.mem_iff, fechas_outer_merge imp con hcon, List.mem_append]
    constructor
    · rintro (h | h)
      · exact Or.inl h
      · rcases List.mem_map.mp h with ⟨b, hbf, hbd⟩
        exact Or.inr (List.mem_map.mpr ⟨b, (List.mem_filter.mp hbf).1, hbd⟩)
    · rintro (h | h)
      · exact Or.inl h
      · by_cases hd : d ∈ imp.map FilaLimpia.fecha
        · exact Or.inl hd
        · right
          rcases List.mem_map.mp h with ⟨b, hb, hbd⟩
          refine List.mem_map.mpr ⟨b, List.mem_filter.mpr ⟨hb, ?_⟩, hbd⟩
          rw [Bool.not_eq_eq_eq_not, Bool.not_true, List.any_eq_false]
          intro a ha htrue
          have htrue2 : (a.fecha == b.fecha) = true := htrue
          rw [beq_iff_eq] at htrue2
          exact hd (List.mem_map.mpr ⟨a, ha, by rw [htrue2, hbd]⟩)
  · exact ordenaPorFecha_sorted FilaComb.fecha _
  · intro r hr
    have hro : r ∈ outer_merge imp con := hperm.subset hr
    rcases (mem_outer_merge imp con r).mp hro with
      ⟨a, ha, b, hb, hbf, rfl⟩ | ⟨a, ha, hnf, rfl⟩ | ⟨b, hb, hnf, rfl⟩
    · exact ⟨Or.inl ⟨a, ha, rfl, rfl, rfl, rfl⟩, Or.inl ⟨b, hb, hbf, rfl, rfl, rfl⟩⟩
    · exact ⟨Or.inl ⟨a, ha, rfl, rfl, rfl, rfl⟩, Or.inr ⟨hnf, rfl, rfl, rfl⟩⟩
    · exact ⟨Or.inr ⟨hnf, rfl, rfl, rfl⟩, Or.inl ⟨b, hb, rfl, rfl, rfl, rfl⟩⟩

/-- Witness for the outer-join theorem: the concrete tables with dates
1, 2 and 2, 3 satisfy its hypotheses, and the theorem applies. -/
theorem fusion_externa_testigo :
    ((series_de_tiempo tablaImpDemo tablaConDemo).map FilaComb.fecha).Nodup ∧
    (∀ d : Int, d ∈ (series_de_tiempo tablaImpDemo tablaConDemo).map FilaComb.fecha ↔
        d ∈ tablaImpDemo.map FilaLimpia.fecha ∨ d ∈ tablaConDemo.map FilaLimpia.fecha) ∧
    (series_de_tiempo tablaImpDemo tablaConDemo).Pairwise (fun a b => a.fecha ≤ b.fecha) ∧
    (∀ r ∈ series_de_tiempo tablaImpDemo tablaConDemo,
        ((∃ a ∈ tablaImpDemo, a.fecha = r.fecha ∧ r.Regular_Imp = a.regular ∧
            r.Superior_Imp = a.superior ∧ r.Diesel_Imp = a.diesel) ∨
          (r.fecha ∉ tablaImpDemo.map FilaLimpia.fecha ∧ r.Regular_Imp = none ∧
            r.Superior_Imp = none ∧ r.Diesel_Imp = none)) ∧
        ((∃ b ∈ tablaConDemo, b.fecha = r.fecha ∧ r.Regular_Con = b.regular ∧
            r.Superior_Con = b.superior ∧ r.Diesel_Con = b.diesel) ∨
          (r.fecha ∉ tablaConDemo.map FilaLimpia.fecha ∧ r.Regular_Con = none ∧
            r.Superior_Con = none ∧ r.Diesel_Con = none))) :=
  fusion_externa tablaImpDemo tablaConDemo (by decide) (by decide)

/-! Decimal rendering and re-parsing. -/

theorem digitsVal_eq_some_iff (s : Str) (v : Nat) :
    digitsVal s = some v ↔
      s ≠ [] ∧ s.all isDigitCode = true ∧
        s.foldl (fun a c => a * 10 + (c - 48)) 0 = v := by
  unfold digitsVal
  split_ifs with h1 h2
  · rw [List.isEmpty_iff] at h1
    simp [h1]
  · rw [List.isEmpty_iff] at h1
    simp only [Option.some_inj]
    constructor
    · intro h; exact ⟨h1, h2, h⟩
    · rintro ⟨_, _, h⟩; exact h
  · rw [List.isEmpty_iff] at h1
    simp only [h2]
    constructor
    · intro h; cases h
    · rintro ⟨_, hc, _⟩; cases hc

theorem natDigitsAux_spec : ∀ (f n : Nat), n < f →
    digitsVal (natDigitsAux f n) = some n ∧
      ∀ c ∈ natDigitsAux f n, 48 ≤ c ∧ c ≤ 57 := by
  intro f
  induction f with
  | zero => intro n h; exact absurd h (Nat.not_lt_zero n)
  | succ f2 ih =>
    intro n h
    by_cases h10 : n < 10
    · have hd : isDigitCode (48 + n) = true := by
        unfold isDigitCode; rw [decide_eq_true_eq]; omega
      constructor
      · show digitsVal (if n < 10 then [48 + n] else _) = some n
        rw [if_pos h10, digitsVal_eq_some_iff]
        refine ⟨by simp, by simp [hd], ?_⟩
        show 0 * 10 + (48 + n - 48) = n
        omega
      · intro c hc
        rw [show natDigitsAux (f2 + 1) n = [48 + n] by
          show (if n < 10 then [48 + n] else _) = _; rw [if_pos h10]] at hc
        rcases List.mem_singleton.mp hc with rfl
        omega
    · have hrec := ih (n / 10) (by omega)
      have heq : natDigitsAux (f2 + 1) n = natDigitsAux f2 (n / 10) ++ [48 + n % 10] := by
        show (if n < 10 then _ else natDigitsAux f2 (n / 10) ++ [48 + n % 10]) = _
        rw [if_neg h10]
      rw [heq]
      rcases (digitsVal_eq_some_iff _ _).mp hrec.1 with ⟨hne, hall, hfold⟩
      constructor
      · rw [digitsVal_eq_some_iff]
        refine ⟨by simp, ?_, ?_⟩
        · rw [List.all_append, hall]
          simp only [Bool.true_and, List.all_cons, List.all_nil, Bool.and_true]
          unfold isDigitCode; rw [decide_eq_true_eq]; omega
        · rw [List.foldl_append, hfold]
          show n / 10 * 10 + (48 + n % 10 - 48) = n
          omega
      · intro c hc
        rcases List.mem_append.mp hc with h2 | h2
        · exact hrec.2 c h2
        · rcases List.mem_singleton.mp h2 with rfl
          omega

theorem digitsVal_natDigits (n : Nat) : digitsVal (natDigits n) = some n :=
  (natDigitsAux_spec (n + 1) n (by omega)).1

theorem natDigits_digits (n : Nat) : ∀ c ∈ natDigits n, 48 ≤ c ∧ c ≤ 57 :=
  (natDigitsAux_spec (n + 1) n (by omega)).2

theorem natDigits_ne_nil (n : Nat) : natDigits n ≠ [] :=
  ((digitsVal_eq_some_iff _ _).mp (digitsVal_natDigits n)).1

theorem natDigitsAux_length : ∀ (f n k : Nat), n < f → n < 10 ^ k → 1 ≤ k →
    (natDigitsAux f n).length ≤ k := by
  intro f
  induction f with
  | zero => intro n k h; exact absurd h (Nat.not_lt_zero n)
  | succ f2 ih =>
    intro n k h hk h1
    by_cases h10 : n < 10
    · rw [show natDigitsAux (f2 + 1) n = [48 + n] by
        show (if n < 10 then [48 + n] else _) = _; rw [if_pos h10]]
      simpa using h1
    · have hk2 : 2 ≤ k := by
        by_contra hlt
        have : k = 1 := by omega
        rw [this] at hk
        simp at hk
        omega
      have hpow : 10 ^ k = 10 * 10 ^ (k - 1) := by
        conv_lhs => rw [show k = (k - 1) + 1 by omega]
        rw [pow_succ]
        ring
      have hdiv : n / 10 < 10 ^ (k - 1) := by
        rw [Nat.div_lt_iff_lt_mul (by omega)]
        omega
      have hrec := ih (n / 10) (k - 1) (by omega) hdiv (by omega)
      rw [show natDigitsAux (f2 + 1) n = natDigitsAux f2 (n / 10) ++ [48 + n % 10] by
        show (if n < 10 then _ else natDigitsAux f2 (n / 10) ++ [48 + n % 10]) = _
        rw [if_neg h10]]
      rw [List.length_append]
      simp only [List.length_singleton]
      omega

theorem natDigits_length_le (n k : Nat) (hk : n < 10 ^ k) (h1 : 1 ≤ k) :
    (natDigits n).length ≤ k :=
  natDigitsAux_length (n + 1) n k (by omega) hk h1

theorem foldl_padCeros (k : Nat) :
    (padCeros k).foldl (fun a c => a * 10 + (c - 48)) 0 = 0 := by
  induction k with
  | zero => rfl
  | succ k2 ih =>
    unfold padCeros at *
    rw [List.replicate_succ, List.foldl_cons]
    simpa using ih

theorem digitsVal_pad (k : Nat) (s : Str) (v : Nat) (h : digitsVal s = some v) :
    digitsVal (padCeros k ++ s) = some v := by
  rcases (digitsVal_eq_some_iff _ _).mp h with ⟨hne, hall, hfold⟩
  rw [digitsVal_eq_some_iff]
  refine ⟨by simp [hne], ?_, ?_⟩
  · rw [List.all_append, hall]
    simp only [Bool.and_true]
    unfold padCeros
    rw [List.all_eq_true]
    intro c hc
    rcases List.eq_of_mem_replicate hc with rfl
    rfl
  · rw [List.foldl_append, foldl_padCeros]
    exact hfold

theorem splitOn_eq_splitOnP (x : Nat) (l : Str) :
    l.splitOn x = l.splitOnP (fun c => c == x) := rfl

theorem splitOn_of_not_mem (x : Nat) (l : Str) (h : x ∉ l) : l.splitOn x = [l] := by
  rw [splitOn_eq_splitOnP]
  apply splitOnP_all_not
  intro c hc
  rw [beq_eq_false_iff_ne]
  intro hcx
  exact h (hcx ▸ hc)

theorem splitOn_append_sep (x : Nat) (u v : Str) (hu : x ∉ u) :
    (u ++ x :: v).splitOn x = u :: v.splitOn x := by
  rw [splitOn_eq_splitOnP, splitOn_eq_splitOnP]
  apply splitOnP_append_sep
  · intro c hc
    rw [beq_eq_false_iff_ne]
    intro hcx
    exact hu (hcx ▸ hc)
  · simp

theorem intStr_chars (i : Int) : ∀ c ∈ intStr i, c = 45 ∨ (48 ≤ c ∧ c ≤ 57) := by
  intro c hc
  unfold intStr at hc
  split_ifs at hc
  · rcases List.mem_cons.mp hc with rfl | h2
    · left; rfl
    · right; exact natDigits_digits _ c h2
  · right; exact natDigits_digits _ c hc

theorem serializaNum_chars (v : DecNum) :
    ∀ c ∈ serializaNum v, c = 45 ∨ c = 46 ∨ (48 ≤ c ∧ c ≤ 57) := by
  unfold serializaNum
  split_ifs with h1 h2
  · intro c hc
    rcases intStr_chars v.mant c hc with h | h
    · exact Or.inl h
    · exact Or.inr (Or.inr h)
  · intro c hc
    rcases List.mem_append.mp hc with h3 | h3
    · rcases List.mem_append.mp h3 with h4 | h4
      · rcases List.mem_append.mp h4 with h5 | h5
        · rcases List.mem_singleton.mp h5 with rfl
          exact Or.inl rfl
        · exact Or.inr (Or.inr (natDigits_digits _ c h5))
      · rcases List.mem_cons.mp h4 with rfl | h5
        · exact Or.inr (Or.inl rfl)
        · rcases List.eq_of_mem_replicate h5 with rfl
          exact Or.inr (Or.inr (by omega))
    · exact Or.inr (Or.inr (natDigits_digits _ c h3))
  · intro c hc
    rcases List.mem_append.mp hc with h3 | h3
    · rcases List.mem_append.mp h3 with h4 | h4
      · rcases List.mem_append.mp h4 with h5 | h5
        · cases h5
        · exact Or.inr (Or.inr (natDigits_digits _ c h5))
      · rcases List.mem_cons.mp h4 with rfl | h5
        · exact Or.inr (Or.inl rfl)
        · rcases List.eq_of_mem_replicate h5 with rfl
          exact Or.inr (Or.inr (by omega))
    · exact Or.inr (Or.inr (natDigits_digits _ c h3))

theorem serializaCelda_chars (v : Option DecNum) :
    ∀ c ∈ serializaCelda v, c = 45 ∨ c = 46 ∨ (48 ≤ c ∧ c ≤ 57) := by
  intro c hc
  cases v with
  | none => cases hc
  | some w => exact serializaNum_chars w c hc

theorem parseIntStr_intStr (i : Int) : parseIntStr (intStr i) = some i := by
  unfold intStr
  split_ifs with h
  · show (digitsVal (natDigits i.natAbs)).map (fun n => -(Int.ofNat n)) = some i
    rw [digitsVal_natDigits]
    show some (-(Int.ofNat i.natAbs)) = some i
    congr 1
    simp only [Int.ofNat_eq_natCast]
    omega
  · cases hnd : natDigits i.natAbs with
    | nil => exact absurd hnd (natDigits_ne_nil _)
    | cons c cs =>
      have hc : 48 ≤ c ∧ c ≤ 57 := natDigits_digits _ c (by rw [hnd]; simp)
      unfold parseIntStr
      split
      · rename_i rest heq
        injection heq with h1 h2
        omega
      · rename_i hne
        rw [← hnd, digitsVal_natDigits]
        show some (Int.ofNat i.natAbs) = some i
        congr 1
        simp only [Int.ofNat_eq_natCast]
        omega

theorem isEmpty_false_of_ne_nil {s : Str} (h : s ≠ []) : s.isEmpty = false := by
  cases he : s.isEmpty
  · rfl
  · rw [List.isEmpty_iff] at he
    exact absurd he h

theorem parseUnsigned_digits (n : Nat) :
    parseUnsigned (natDigits n) = some ⟨(n : Int), 0⟩ := by
  have h46 : (46 : Nat) ∉ natDigits n := by
    intro h
    have := natDigits_digits n 46 h
    omega
  unfold parseUnsigned
  rw [splitOn_of_not_mem 46 _ h46]
  show (digitsVal (natDigits n)).map (fun v => (⟨Int.ofNat v, 0⟩ : DecNum)) = _
  rw [digitsVal_natDigits]
  rfl

theorem parseUnsigned_frac (adig bdig E : Nat) (hb : bdig < 10 ^ E) (hE : 1 ≤ E) :
    parseUnsigned (natDigits adig ++
        46 :: (padCeros (E - (natDigits bdig).length) ++ natDigits bdig)) =
      some ⟨(adig : Int) * 10 ^ E + (bdig : Int), E⟩ := by
  have h46A : (46 : Nat) ∉ natDigits adig := by
    intro h
    have := natDigits_digits adig 46 h
    omega
  have h46R : (46 : Nat) ∉ padCeros (E - (natDigits bdig).length) ++ natDigits bdig := by
    intro h
    rcases List.mem_append.mp h with h2 | h2
    · have := List.eq_of_mem_replicate h2
      omega
    · have := natDigits_digits bdig 46 h2
      omega
  have hAe : (natDigits adig).isEmpty = false := isEmpty_false_of_ne_nil (natDigits_ne_nil adig)
  have hRne : padCeros (E - (natDigits bdig).length) ++ natDigits bdig ≠ [] := by
    intro h
    exact natDigits_ne_nil bdig (List.append_eq_nil.mp h).2
  have hRe : (padCeros (E - (natDigits bdig).length) ++ natDigits bdig).isEmpty = false :=
    isEmpty_false_of_ne_nil hRne
  have hlenB : (natDigits bdig).length ≤ E := natDigits_length_le bdig E hb hE
  have hlen : (padCeros (E - (natDigits bdig).length) ++ natDigits bdig).length = E := by
    rw [List.length_append]
    unfold padCeros
    rw [List.length_replicate]
    omega
  have hvalR : digitsVal (padCeros (E - (natDigits bdig).length) ++ natDigits bdig) =
      some bdig := digitsVal_pad _ _ _ (digitsVal_natDigits bdig)
  unfold parseUnsigned
  rw [splitOn_append_sep 46 _ _ h46A, splitOn_of_not_mem 46 _ h46R]
  simp only [hAe, hRe, Bool.false_and, Bool.false_eq_true, if_false, digitsVal_natDigits, hvalR]
  rw [hlen]

theorem toNumeric_of_digit_head (c : Nat) (cs : Str) (h1 : c ≠ 45) (h2 : c ≠ 43) :
    toNumeric (c :: cs) = parseUnsigned (c :: cs) := by
  unfold toNumeric
  split
  · rename_i rest heq
    injection heq with ha hb
    exact absurd ha h1
  · rename_i rest heq
    injection heq with ha hb
    exact absurd ha h2
  · rfl

theorem toNumeric_serializaNum (v : DecNum) : toNumeric (serializaNum v) = some v := by
  obtain ⟨m, e⟩ := v
  cases e with
  | zero =>
    have hser : serializaNum ⟨m, 0⟩ = intStr m := by
      unfold serializaNum
      rw [if_pos rfl]
    rw [hser]
    unfold intStr
    split_ifs with h
    · show (parseUnsigned (natDigits m.natAbs)).map
        (fun n => (⟨-n.mant, n.exp⟩ : DecNum)) = some ⟨m, 0⟩
      rw [parseUnsigned_digits]
      show some (⟨-(Int.ofNat m.natAbs), 0⟩ : DecNum) = some ⟨m, 0⟩
      congr 2
      simp only [Int.ofNat_eq_natCast]
      omega
    · cases hnd : natDigits m.natAbs with
      | nil => exact absurd hnd (natDigits_ne_nil _)
      | cons c cs =>
        have hc : 48 ≤ c ∧ c ≤ 57 := natDigits_digits _ c (by rw [hnd]; simp)
        rw [toNumeric_of_digit_head c cs (by omega) (by omega), ← hnd,
          parseUnsigned_digits]
        congr 2
        omega
  | succ e2 =>
    have hb : m.natAbs % 10 ^ (e2 + 1) < 10 ^ (e2 + 1) := Nat.mod_lt _ (by positivity)
    have hnat : m.natAbs / 10 ^ (e2 + 1) * 10 ^ (e2 + 1) + m.natAbs % 10 ^ (e2 + 1) =
        m.natAbs := Nat.div_add_mod' _ _
    have hcast : ((m.natAbs / 10 ^ (e2 + 1) : Nat) : Int) * 10 ^ (e2 + 1) +
        ((m.natAbs % 10 ^ (e2 + 1) : Nat) : Int) = (m.natAbs : Int) := by
      exact_mod_cast hnat
    have hshape : serializaNum ⟨m, e2 + 1⟩ =
        (if m < 0 then [45] else []) ++
          (natDigits (m.natAbs / 10 ^ (e2 + 1)) ++
            46 :: (padCeros ((e2 + 1) - (natDigits (m.natAbs % 10 ^ (e2 + 1))).length) ++
              natDigits (m.natAbs % 10 ^ (e2 + 1)))) := by
      unfold serializaNum
      rw [if_neg (Nat.succ_ne_zero e2)]
      simp only [List.append_assoc, List.cons_append]
    rw [hshape]
    split_ifs with hm
    · rw [List.singleton_append]
      show (parseUnsigned _).map (fun n => (⟨-n.mant, n.exp⟩ : DecNum)) = some ⟨m, e2 + 1⟩
      rw [parseUnsigned_frac _ _ (e2 + 1) hb (by omega)]
      show some (⟨-(((m.natAbs / 10 ^ (e2 + 1) : Nat) : Int) * 10 ^ (e2 + 1) +
        ((m.natAbs % 10 ^ (e2 + 1) : Nat) : Int)), e2 + 1⟩ : DecNum) = some ⟨m, e2 + 1⟩
      rw [hcast]
      congr 2
      omega
    · rw [List.nil_append]
      cases hnd : natDigits (m.natAbs / 10 ^ (e2 + 1)) with
      | nil => exact absurd hnd (natDigits_ne_nil _)
      | cons c cs =>
        have hc : 48 ≤ c ∧ c ≤ 57 := natDigits_digits _ c (by rw [hnd]; simp)
        rw [List.cons_append, toNumeric_of_digit_head c _ (by omega) (by omega),
          ← List.cons_append, ← hnd, parseUnsigned_frac _ _ (e2 + 1) hb (by omega)]
        rw [show ((⟨((m.natAbs / 10 ^ (e2 + 1) : Nat) : Int) * 10 ^ (e2 + 1) +
          ((m.natAbs % 10 ^ (e2 + 1) : Nat) : Int), e2 + 1⟩ : DecNum)) =
            (⟨(m.natAbs : Int), e2 + 1⟩ : DecNum) by rw [hcast]]
        congr 2
        omega

theorem toNumeric_serializaCelda (v : Option DecNum) :
    toNumeric (serializaCelda v) = v := by
  cases v with
  | none => rfl
  | some w => exact toNumeric_serializaNum w

theorem intercalate_cuatro (x : Nat) (a b c d : Str) :
    [x].intercalate [a, b, c, d] = a ++ x :: (b ++ x :: (c ++ x :: d)) := by
  simp [List.intercalate, List.intersperse]

theorem no44_intStr (i : Int) : (44 : Nat) ∉ intStr i := by
  intro h
  have := intStr_chars i 44 h
  omega

theorem no44_serializaCelda (v : Option DecNum) : (44 : Nat) ∉ serializaCelda v := by
  intro h
  have := serializaCelda_chars v 44 h
  omega

theorem no10_filaCSV (r : FilaLimpia) : (10 : Nat) ∉ filaCSV r := by
  intro h
  unfold filaCSV at h
  rw [intercalate_cuatro] at h
  have hint : ∀ z ∈ intStr r.fecha, z ≠ 10 := by
    intro z hz
    have := intStr_chars r.fecha z hz
    omega
  have hcel : ∀ v : Option DecNum, ∀ z ∈ serializaCelda v, z ≠ 10 := by
    intro v z hz
    have := serializaCelda_chars v z hz
    omega
  rcases List.mem_append.mp h with h2 | h2
  · exact hint 10 h2 rfl
  · rcases List.mem_cons.mp h2 with h3 | h3
    · cases h3
    · rcases List.mem_append.mp h3 with h4 | h4
      · exact hcel _ 10 h4 rfl
      · rcases List.mem_cons.mp h4 with h5 | h5
        · cases h5
        · rcases List.mem_append.mp h5 with h6 | h6
          · exact hcel _ 10 h6 rfl
          · rcases List.mem_cons.mp h6 with h7 | h7
            · cases h7
            · exact hcel _ 10 h7 rfl

theorem parseFilaCSV_filaCSV (r : FilaLimpia) : parseFilaCSV (filaCSV r) = some r := by
  unfold filaCSV parseFilaCSV
  rw [intercalate_cuatro,
    splitOn_append_sep 44 _ _ (no44_intStr r.fecha),
    splitOn_append_sep 44 _ _ (no44_serializaCelda r.regular),
    splitOn_append_sep 44 _ _ (no44_serializaCelda r.superior),
    splitOn_of_not_mem 44 _ (no44_serializaCelda r.diesel)]
  show Option.map (fun d0 => (⟨d0, toNumeric (serializaCelda r.regular),
    toNumeric (serializaCelda r.superior), toNumeric (serializaCelda r.diesel)⟩ :
      FilaLimpia)) (parseIntStr (intStr r.fecha)) = some r
  rw [parseIntStr_intStr]
  show some (⟨r.fecha, toNumeric (serializaCelda r.regular),
    toNumeric (serializaCelda r.superior), toNumeric (serializaCelda r.diesel)⟩ :
      FilaLimpia) = some r
  rw [toNumeric_serializaCelda, toNumeric_serializaCelda, toNumeric_serializaCelda]

theorem parseFilas_map (df : List FilaLimpia) :
    parseFilas (df.map filaCSV) = some df := by
  induction df with
  | nil => rfl
  | cons r rest ih =>
    show parseFilas (filaCSV r :: rest.map filaCSV) = _
    unfold parseFilas
    rw [parseFilaCSV_filaCSV, ih]

theorem no44_serializaNum (v : DecNum) : (44 : Nat) ∉ serializaNum v := by
  intro h
  have := serializaNum_chars v 44 h
  omega

theorem no10_filaCSV2025 (r : FilaImp) : (10 : Nat) ∉ filaCSV2025 r := by
  intro h
  unfold filaCSV2025 at h
  rw [intercalate_cuatro] at h
  have hint : ∀ z ∈ intStr r.fecha, z ≠ 10 := by
    intro z hz
    have := intStr_chars r.fecha z hz
    omega
  have hcel : ∀ v : Option DecNum, ∀ z ∈ serializaCelda v, z ≠ 10 := by
    intro v z hz
    have := serializaCelda_chars v z hz
    omega
  have hnum : ∀ z ∈ serializaNum r.Diesel_Imp, z ≠ 10 := by
    intro z hz
    have := serializaNum_chars r.Diesel_Imp z hz
    omega
  rcases List.mem_append.mp h with h2 | h2
  · exact hint 10 h2 rfl
  · rcases List.mem_cons.mp h2 with h3 | h3
    · cases h3
    · rcases List.mem_append.mp h3 with h4 | h4
      · exact hcel _ 10 h4 rfl
      · rcases List.mem_cons.mp h4 with h5 | h5
        · cases h5
        · rcases List.mem_append.mp h5 with h6 | h6
          · exact hcel _ 10 h6 rfl
          · rcases List.mem_cons.mp h6 with h7 | h7
            · cases h7
            · exact hnum 10 h7 rfl

theorem parseFilaCSV2025_filaCSV2025 (r : FilaImp) :
    parseFilaCSV2025 (filaCSV2025 r) = some r := by
  unfold filaCSV2025 parseFilaCSV2025
  rw [intercalate_cuatro,
    splitOn_append_sep 44 _ _ (no44_intStr r.fecha),
    splitOn_append_sep 44 _ _ (no44_serializaCelda r.Regular_Imp),
    splitOn_append_sep 44 _ _ (no44_serializaCelda r.Superior_Imp),
    splitOn_of_not_mem 44 _ (no44_serializaNum r.Diesel_Imp)]
  show (parseIntStr (intStr r.fecha)).bind (fun d0 =>
    (toNumeric (serializaNum r.Diesel_Imp)).map (fun dv =>
      (⟨d0, toNumeric (serializaCelda r.Regular_Imp),
        toNumeric (serializaCelda r.Superior_Imp), dv⟩ : FilaImp))) = some r
  rw [parseIntStr_intStr]
  show (toNumeric (serializaNum r.Diesel_Imp)).map (fun dv =>
    (⟨r.fecha, toNumeric (serializaCelda r.Regular_Imp),
      toNumeric (serializaCelda r.Superior_Imp), dv⟩ : FilaImp)) = some r
  rw [toNumeric_serializaNum]
  show some (⟨r.fecha, toNumeric (serializaCelda r.Regular_Imp),
    toNumeric (serializaCelda r.Superior_Imp), r.Diesel_Imp⟩ : FilaImp) = some r
  rw [toNumeric_serializaCelda, toNumeric_serializaCelda]

theorem parseFilas2025_map (df : List FilaImp) :
    parseFilas2025 (df.map filaCSV2025) = some df := by
  induction df with
  | nil => rfl
  | cons r rest ih =>
    show parseFilas2025 (filaCSV2025 r :: rest.map filaCSV2025) = _
    unfold parseFilas2025
    rw [parseFilaCSV2025_filaCSV2025, ih]

/-- C9: exporting a cleaned table (header line of canonical column names, no
index column, missing cells as empty fields) and re-parsing the file with
empty fields read as missing reproduces exactly the table, values and row
order alike — for every table of either script's shape (the excel_a_csv
export and the actualiza_datos_2025 export with its renamed columns). -/
theorem csv_ida_y_vuelta :
    (∀ df : List FilaLimpia, read_csv (to_csv df) = some df) ∧
    (∀ df : List FilaImp, read_csv_2025 (to_csv_2025 df) = some df) ∧
    serializaCelda none = [] ∧
    to_csv [] = encabezadoCSV ∧
    encabezadoCSV = codes "fecha,gasolina regular,gasolina superior,diesel alto azufre" ∧
    to_csv_2025 [] = encabezadoCSV2025 ∧
    encabezadoCSV2025 = codes "fecha,Regular_Imp,Superior_Imp,Diesel_Imp" := by
  refine ⟨?_, ?_, rfl, rfl, rfl, rfl, rfl⟩
  · intro df
    have hsplit : (to_csv df).splitOn 10 = encabezadoCSV :: df.map filaCSV := by
      unfold to_csv
      apply List.splitOn_intercalate
      · intro l hl
        rcases List.mem_cons.mp hl with rfl | h2
        · decide
        · rcases List.mem_map.mp h2 with ⟨r, _, rfl⟩
          exact no10_filaCSV r
      · simp
    unfold read_csv
    rw [hsplit]
    show (if (encabezadoCSV == encabezadoCSV) = true then parseFilas (df.map filaCSV)
      else none) = some df
    rw [beq_self_eq_true, if_pos rfl, parseFilas_map]
  · intro df
    have hsplit : (to_csv_2025 df).splitOn 10 = encabezadoCSV2025 :: df.map filaCSV2025 := by
      unfold to_csv_2025
      apply List.splitOn_intercalate
      · intro l hl
        rcases List.mem_cons.mp hl with rfl | h2
        · decide
        · rcases List.mem_map.mp h2 with ⟨r, _, rfl⟩
          exact no10_filaCSV2025 r
      · simp
    unfold read_csv_2025
    rw [hsplit]
    show (if (encabezadoCSV2025 == encabezadoCSV2025) = true then
      parseFilas2025 (df.map filaCSV2025) else none) = some df
    rw [beq_self_eq_true, if_pos rfl, parseFilas2025_map]
